import Mathlib

/-!
Verification development for the deepseek-cli command/response engine.

The definitions below are a shallow embedding of the JavaScript sources
`src/CommandExecutor.mjs`, `src/TaskExecutor.mjs`, `src/AgentRunner.mjs` and
the CLI agent-stack code (`DeepSeekCLI`).  JavaScript strings are modelled as
`List Char`; the handful of regular expressions in the source are compiled to
deterministic matchers (each compilation is justified in a comment at the
definition).  `\s` is modelled by its ASCII members (space, tab, newline,
carriage return, vertical tab, form feed); the sources are only exercised on
ASCII command text.  Filesystem and process side effects are represented as
data: the result type records which effect the code would perform.
-/

namespace DS

/-- JavaScript strings, modelled as lists of characters. -/
abbrev Str := List Char

/-- Converts a Lean string literal to the model's string type. -/
def str (s : String) : Str := s.toList

/-- ASCII members of the JavaScript `\s` class (also used by `trim`). -/
def jsWs (c : Char) : Bool :=
  c = ' ' || c = '\t' || c = '\n' || c = '\r' || c = '\x0b' || c = '\x0c'

/-- JavaScript `String.prototype.trim`: strips whitespace from both ends. -/
def jsTrim (s : Str) : Str :=
  ((s.dropWhile jsWs).reverse.dropWhile jsWs).reverse

/-- JavaScript `String.prototype.toLowerCase` (ASCII). -/
def lower (s : Str) : Str := s.map Char.toLower

/-- JavaScript `String.prototype.split` with a one-character separator. -/
def jsSplit (sep : Char) : Str → List Str
  | [] => [[]]
  | c :: rest =>
    if c = sep then [] :: jsSplit sep rest
    else
      match jsSplit sep rest with
      | [] => [[c]]
      | l :: ls => (c :: l) :: ls

/-- JavaScript line terminators relevant to the multiline `^`/`$` anchors
(ASCII: line feed and carriage return; the Unicode separators are outside
the modelled character set). -/
def jsLineTerm (c : Char) : Bool := c = '\n' || c = '\r'

/-- Splits at every line terminator: each `\r` and each `\n` ends a line,
so a CRLF pair produces an intervening empty line — exactly the positions
at which the multiline anchors match. -/
def jsSplitTerm : Str → List Str
  | [] => [[]]
  | c :: rest =>
    if jsLineTerm c then [] :: jsSplitTerm rest
    else
      match jsSplitTerm rest with
      | [] => [[c]]
      | l :: ls => (c :: l) :: ls

/-- `startsList p s` is true iff `p` is a prefix of `s`
(JavaScript `s.startsWith(p)`). -/
def startsList : Str → Str → Bool
  | [], _ => true
  | _ :: _, [] => false
  | p :: ps, c :: cs => p = c && startsList ps cs

/-- First index at or after which `pat` occurs in `s`
(JavaScript `s.indexOf(pat)`), `none` when absent. -/
def findSub (pat : Str) : Str → Option Nat
  | [] => if pat.isEmpty then some 0 else none
  | s@(_ :: rest) =>
    if startsList pat s then some 0
    else (findSub pat rest).map (· + 1)

/-- `pat` occurs somewhere in `s` (decidable form used in hypotheses). -/
def hasSub (pat s : Str) : Bool :=
  (List.range (s.length + 1)).any (fun i => startsList pat (s.drop i))

/-! ### The forbidden-command filter (`CommandExecutor.isCommandForbidden`)

```js
isCommandForbidden(command) {
  const cleanCommand = command.split('#')[0].trim().toLowerCase();
  return Array.from(this.forbiddenCommands).some(forbidden =>
    cleanCommand === forbidden || cleanCommand.startsWith(forbidden)
  );
}
```
The constructor stores `forbiddenCommands.map(cmd => cmd.toLowerCase())`
in a `Set`; membership in the set is existential, so the deduplication the
`Set` performs is irrelevant to `some` and the stored list is modelled as the
lowercased list. -/

/-- `command.split('#')[0]`: the text before the first `#`. -/
def beforeHash (s : Str) : Str := s.takeWhile (· ≠ '#')

/-- The cleaned command used by the forbidden check:
comment-stripped, trimmed, lower-cased. -/
def cleanCommand (command : Str) : Str := lower (jsTrim (beforeHash command))

/-- The constructor's lowercasing of the configured forbidden entries. -/
def mkForbidden (raw : List Str) : List Str := raw.map lower

/-- `CommandExecutor.isCommandForbidden` over the stored (lowercased) list. -/
def isCommandForbidden (forbidden : List Str) (command : Str) : Bool :=
  forbidden.any (fun f =>
    decide (cleanCommand command = f) || startsList f (cleanCommand command))

/-- The default forbidden commands (`DeepSeekCLI.loadForbiddenCommands`). -/
def defaultForbidden : List Str :=
  [str "rm -rf /", str "rm -rf /*", str "rm -rf .", str "rm -rf *",
   str "dd if=/dev/random", str "mkfs", str "fdisk", str ":(){ :|:& };:",
   str "chmod -R 000", str "chown -R root:root", str "mv / /dev/null",
   str "> /dev/sda", str "dd if=/dev/zero"]

/-! ### Basic lemmas about the string primitives -/

theorem startsList_iff (p : Str) : ∀ s : Str, startsList p s = true ↔ s.take p.length = p := by
  induction p with
  | nil => intro s; simp [startsList]
  | cons a ps ih =>
    intro s
    cases s with
    | nil => simp [startsList]
    | cons c cs =>
      simp only [startsList, List.length_cons, List.take_succ_cons, List.cons.injEq,
        Bool.and_eq_true, decide_eq_true_eq]
      constructor
      · rintro ⟨h1, h2⟩; exact ⟨h1.symm, (ih cs).mp h2⟩
      · rintro ⟨h1, h2⟩; exact ⟨h1.symm, (ih cs).mpr h2⟩

theorem startsList_length {p s : Str} (h : startsList p s = true) : p.length ≤ s.length := by
  have := (startsList_iff p s).mp h
  have hlen : (s.take p.length).length = p.length := by rw [this]
  simp only [List.length_take] at hlen
  omega

theorem startsList_refl (p : Str) : startsList p p = true := by
  rw [startsList_iff]; simp

theorem startsList_append (p rest : Str) : startsList p (p ++ rest) = true := by
  rw [startsList_iff]; simp [List.take_append]

theorem findSub_some {pat s : Str} {p : Nat} (h : findSub pat s = some p) :
    startsList pat (s.drop p) = true := by
  induction s generalizing p with
  | nil =>
    simp only [findSub] at h
    split at h
    · simp_all [List.isEmpty_iff]; subst h; simp [startsList]
    · exact absurd h (by simp)
  | cons c cs ih =>
    simp only [findSub] at h
    split at h
    · rename_i hs
      simp only [Option.some.injEq] at h
      subst h; simpa using hs
    · cases hf : findSub pat cs with
      | none => rw [hf] at h; simp at h
      | some q =>
        rw [hf] at h
        simp only [Option.map_some', Option.some.injEq] at h
        subst h
        simpa using ih hf

theorem findSub_min {pat s : Str} {p : Nat} (h : findSub pat s = some p) :
    ∀ i, i < p → startsList pat (s.drop i) = false := by
  induction s generalizing p with
  | nil =>
    simp only [findSub] at h
    split at h
    · simp_all; omega
    · exact absurd h (by simp)
  | cons c cs ih =>
    simp only [findSub] at h
    split at h
    · simp only [Option.some.injEq] at h; omega
    · rename_i hns
      cases hf : findSub pat cs with
      | none => rw [hf] at h; simp at h
      | some q =>
        rw [hf] at h
        simp only [Option.map_some', Option.some.injEq] at h
        subst h
        intro i hi
        cases i with
        | zero => simpa using Bool.eq_false_iff.mpr hns
        | succ j =>
          have := ih hf j (by omega)
          simpa using this

theorem findSub_of {pat s : Str} {p : Nat} (hne : pat ≠ [])
    (hp : startsList pat (s.drop p) = true)
    (hmin : ∀ i, i < p → startsList pat (s.drop i) = false) :
    findSub pat s = some p := by
  induction s generalizing p with
  | nil =>
    cases p with
    | zero =>
      simp only [List.drop_nil] at hp
      cases pat with
      | nil => exact absurd rfl hne
      | cons a ps => simp [startsList] at hp
    | succ q =>
      simp only [List.drop_nil] at hp
      cases pat with
      | nil => exact absurd rfl hne
      | cons a ps => simp [startsList] at hp
  | cons c cs ih =>
    cases p with
    | zero =>
      simp only [List.drop_zero] at hp
      simp [findSub, hp]
    | succ q =>
      have h0 : startsList pat (c :: cs) = false := by
        have := hmin 0 (by omega); simpa using this
      simp only [findSub, h0]
      simp only [Bool.false_eq_true, if_false]
      have hrec : findSub pat cs = some q := by
        apply ih
        · simpa using hp
        · intro i hi
          have := hmin (i + 1) (by omega)
          simpa using this
      rw [hrec]; rfl

theorem findSub_none_of {pat s : Str}
    (h : ∀ i, startsList pat (s.drop i) = false) :
    findSub pat s = none := by
  induction s with
  | nil =>
    have h0 := h 0
    simp only [List.drop_nil] at h0
    cases pat with
    | nil => simp [startsList] at h0
    | cons a ps => simp [findSub]
  | cons c cs ih =>
    have h0 : startsList pat (c :: cs) = false := by simpa using h 0
    simp only [findSub, h0, Bool.false_eq_true, if_false]
    rw [ih (fun i => by simpa using h (i + 1))]
    rfl

theorem hasSub_false {pat s : Str} (hne : pat ≠ []) (h : hasSub pat s = false) :
    ∀ i, startsList pat (s.drop i) = false := by
  intro i
  by_cases hi : i ≤ s.length
  · by_contra hc
    have hc' : startsList pat (s.drop i) = true := by
      cases hx : startsList pat (s.drop i) with
      | false => exact absurd hx hc
      | true => rfl
    have : hasSub pat s = true := by
      unfold hasSub
      rw [List.any_eq_true]
      exact ⟨i, List.mem_range.mpr (by omega), hc'⟩
    rw [h] at this; exact absurd this (by simp)
  · have : s.drop i = [] := List.drop_eq_nil_of_le (by omega)
    rw [this]
    cases pat with
    | nil => exact absurd rfl hne
    | cons a ps => simp [startsList]

/-! ### The response parser (`CommandExecutor.parseAIResponse`)

A reply is scanned left to right for `>>>`; the text before a start marker is
a chat segment, the text between `>>>` and the next `<<<` is (after trimming)
a shell action, and a dangling `>>>` is recorded as an unclosed block and the
remainder is reprocessed as chat.  Chat segments are split into lines; a line
matching `/^agent\s+(\w+)\s*:?\s*(.*)$/i` becomes an agent action; other
non-blank lines accumulate into a comment buffer, flushed on blank lines,
agent lines and at the end of the segment. -/

/-- One parsed unit of model-reply intent. -/
inductive Action where
  | comment (content : Str)
  | shell (content : Str)
  | agent (agentId : Str) (message : Str)
  deriving DecidableEq, Repr

/-- An unclosed command block diagnostic: start offset and 200-char preview. -/
structure UnclosedBlock where
  startIndex : Nat
  preview : Str
  deriving DecidableEq, Repr

/-- JavaScript `\w` class member (letter, digit or underscore, ASCII). -/
def wordCh (c : Char) : Bool :=
  ('a' ≤ c && c ≤ 'z') || ('A' ≤ c && c ≤ 'Z') || ('0' ≤ c && c ≤ '9') || c = '_'

/-- Deterministic compilation of the agent-delegation pattern
`/^agent\s+(\w+)\s*:?\s*(.*)$/i` applied to a (trimmed) line: the literal
`agent` is matched case-insensitively, `\s+` and `\w+` take maximal runs,
then whitespace, an optional colon and whitespace are skipped and the
remainder is the captured message.  Without the `m` flag `$` anchors only
at the very end of the input and `.` cannot match a line terminator, so a
match exists only when the captured message is terminator-free: a line with
an interior `\r` outside the whitespace runs is rejected (any backtracking
of the greedy runs only moves the message start earlier, so the terminator
stays inside `(.*)` and the match still fails). -/
def agentMatch (l : Str) : Option (Str × Str) :=
  match l with
  | a :: g :: e :: n :: t :: rest =>
    if lower [a, g, e, n, t] = str "agent" then
      match rest with
      | c :: r =>
        if jsWs c then
          let r1 := r.dropWhile jsWs
          let id := r1.takeWhile wordCh
          if id = [] then none
          else
            let r2 := r1.dropWhile wordCh
            let r3 := r2.dropWhile jsWs
            let r4 := match r3 with
              | ':' :: t4 => t4
              | _ => r3
            let msg := r4.dropWhile jsWs
            if msg.any jsLineTerm then none
            else some (id, msg)
        else none
      | [] => none
    else none
  | _ => none

/-- `flushCommentLines`: joins and trims the buffered chat lines, emitting a
comment action when the result is non-empty. -/
def flushBuf (buf : List Str) : List Action :=
  if buf = [] then []
  else if jsTrim (List.intercalate ['\n'] buf) = [] then []
  else [Action.comment (jsTrim (List.intercalate ['\n'] buf))]

/-- The per-line loop of `appendChatSegment` (buffer passed explicitly). -/
def chatGo : List Str → List Str → List Action
  | [], buf => flushBuf buf
  | raw :: ls, buf =>
    if jsTrim raw = [] then flushBuf buf ++ chatGo ls []
    else
      match agentMatch (jsTrim raw) with
      | some (id, msg) => flushBuf buf ++ Action.agent id (jsTrim msg) :: chatGo ls []
      | none => chatGo ls (buf ++ [jsTrim raw])

/-- `appendChatSegment`: splits a chat segment into lines and emits comment
and agent actions. -/
def appendChat (seg : Str) : List Action :=
  if seg = [] then [] else chatGo (jsSplit '\n' seg) []

/-- The `>>>` start marker. -/
def mOpen : Str := str ">>>"

/-- The `<<<` end marker. -/
def mClose : Str := str "<<<"

/-- The marker-scanning loop of `parseAIResponse`, written on the suffix of
the response starting at the cursor (`base` is the absolute cursor offset,
used only for the recorded start index of an unclosed block); `fuel` is a
structural-recursion bound, adequate whenever `s.length < fuel` because each
iteration consumes at least the six marker characters. -/
def parseScanF : Nat → Str → Nat → List Action × List UnclosedBlock
  | 0, _, _ => ([], [])
  | fuel + 1, s, base =>
    match findSub mOpen s with
    | none => (appendChat s, [])
    | some p =>
      match findSub mClose (s.drop (p + 3)) with
      | none =>
        (appendChat (s.take p) ++ appendChat (s.drop p), [⟨base + p, (s.drop p).take 200⟩])
      | some q =>
        (appendChat (s.take p) ++
           (if jsTrim ((s.drop (p + 3)).take q) = [] then []
            else [Action.shell (jsTrim ((s.drop (p + 3)).take q))]) ++
           (parseScanF fuel ((s.drop (p + 3)).drop (q + 3)) (base + p + 3 + q + 3)).1,
         (parseScanF fuel ((s.drop (p + 3)).drop (q + 3)) (base + p + 3 + q + 3)).2)

/-- The marker-scanning loop at an adequate fuel. -/
def parseScan (s : Str) (base : Nat) : List Action × List UnclosedBlock :=
  parseScanF (s.length + 1) s base

/-- The result record of `parseAIResponse` (`diagnostics.unclosedBlocks` is
inlined as `unclosedBlocks`; the JS field `type` is named `rtype`). -/
structure ParseResult where
  rtype : Str
  command : Option Str
  commands : List Str
  actions : List Action
  fullResponse : Str
  unclosedBlocks : List UnclosedBlock
  deriving DecidableEq, Repr

/-- Projects the content of a shell action. -/
def shellContent : Action → Option Str
  | Action.shell c => some c
  | _ => none

/-- True for agent actions. -/
def isAgentAction : Action → Bool
  | Action.agent _ _ => true
  | _ => false

/-- `CommandExecutor.parseAIResponse`. -/
def parseAIResponse (response : Str) : ParseResult :=
  { rtype :=
      if (parseScan response 0).1.filterMap shellContent ≠ [] then str "command"
      else if (parseScan response 0).1.any isAgentAction then str "agent"
      else str "comment"
    command := ((parseScan response 0).1.filterMap shellContent).head?
    commands := (parseScan response 0).1.filterMap shellContent
    actions := (parseScan response 0).1
    fullResponse := response
    unclosedBlocks := (parseScan response 0).2 }

/-! ### Completion sentinels

`AgentRunner.runAgent` stops its loop when the trimmed reply matches
`/^(>>\s*)?(exit|pause|done)$/i`; `TaskExecutor.executeTaskLoop` breaks when
a parsed shell action's lowercased content is `pause` or `exit`. -/

/-- The three sentinel words. -/
def sentinelWord (s : Str) : Bool :=
  s = str "exit" || s = str "pause" || s = str "done"

/-- Deterministic compilation of `/^(>>\s*)?(exit|pause|done)$/i` on an
already-trimmed string: either the whole string is a sentinel word
(case-insensitively), or it starts with the literal `>>` and, after skipping
whitespace, the remainder is a sentinel word.  (When the optional `(>>\s*)`
group is taken and fails, backtracking to the empty group also fails because
the string then starts with `>`, which no sentinel word does; `\s*` never
needs to backtrack because no sentinel word starts with whitespace.) -/
def sentinelRegexAccepts (t : Str) : Bool :=
  sentinelWord (lower t) ||
    (match t with
     | c1 :: c2 :: r =>
       decide (c1 = '>') && decide (c2 = '>') && sentinelWord (lower (r.dropWhile jsWs))
     | _ => false)

/-- The reply-level terminal check of `AgentRunner.runAgent` (line
`/^(>>\s*)?(exit|pause|done)$/i.test(response.trim())`). -/
def isTerminalReply (response : Str) : Bool :=
  sentinelRegexAccepts (jsTrim response)

/-- The shell-action sentinel break of `TaskExecutor.executeTaskLoop`
(`action.content.toLowerCase() === 'pause' || ... === 'exit'`). -/
def shellSentinelBreak (content : Str) : Bool :=
  decide (lower content = str "pause") || decide (lower content = str "exit")

/-! ### Heredoc integrity (`CommandExecutor.findUnterminatedHeredoc`)

```js
const heredocPattern = /<<\s*(['"]?)([A-Za-z0-9_]+)\1/g;
while ((match = heredocPattern.exec(command)) !== null) {
  const marker = match[2];
  const markerRegex = new RegExp(`^$\x7bmarker\x7d$`, 'm');
  if (!markerRegex.test(command.substring(match.index))) pendingMarkers.push(marker);
}
```
The opener pattern is compiled deterministically: `\s*` takes the maximal
whitespace run (whitespace is neither a quote nor a word character, so no
backtracking can succeed with a shorter run); when a quote is present, the
identifier is the maximal word run and must be followed by the same quote
(the empty-quote alternative then fails because a quote is not a word
character); with no quote the identifier is simply the maximal word run. -/

/-- Tries the opener pattern at the current position; on success returns the
captured identifier and the total length of the match. -/
def matchOpenerAt (s : Str) : Option (Str × Nat) :=
  match s with
  | '<' :: '<' :: r =>
    let ws := r.takeWhile jsWs
    let r1 := r.dropWhile jsWs
    match r1 with
    | '\'' :: r2 =>
      let w := r2.takeWhile wordCh
      if w ≠ [] ∧ (r2.dropWhile wordCh).head? = some '\'' then
        some (w, 2 + ws.length + 1 + w.length + 1)
      else none
    | '"' :: r2 =>
      let w := r2.takeWhile wordCh
      if w ≠ [] ∧ (r2.dropWhile wordCh).head? = some '"' then
        some (w, 2 + ws.length + 1 + w.length + 1)
      else none
    | _ =>
      let w := r1.takeWhile wordCh
      if w = [] then none else some (w, 2 + ws.length + w.length)
  | _ => none

/-- The `exec` loop with the `g` flag: successive matches, each search
resuming just past the previous match (`lastIndex`); returns the list of
(absolute index, identifier) pairs.  `fuel` bounds the recursion and is
adequate whenever `s.length < fuel` since every step consumes at least one
character. -/
def scanOpenersF : Nat → Str → Nat → List (Nat × Str)
  | 0, _, _ => []
  | fuel + 1, s, base =>
    match s with
    | [] => []
    | _ :: rest =>
      match matchOpenerAt s with
      | some (m, len) => (base, m) :: scanOpenersF fuel (s.drop len) (base + len)
      | none => scanOpenersF fuel rest (base + 1)

/-- All opener occurrences of a command, at an adequate fuel. -/
def scanOpeners (s : Str) : List (Nat × Str) := scanOpenersF (s.length + 1) s 0

/-- The multiline test `new RegExp(`^marker$`, 'm').test(sub)`: some run of
`sub` delimited by line terminators (or the ends of the string) equals the
identifier.  Multiline `^` matches at the start of the string and after
every `\n` or `\r`; `$` matches at the end and before every `\n` or `\r`
(identifiers consist of word characters only, so the interpolation
introduces no metacharacters). -/
def anyLineEq (sub marker : Str) : Bool :=
  (jsSplitTerm sub).any (fun l => decide (l = marker))

/-- `[...new Set(xs)]`: deduplication preserving first-occurrence order. -/
def dedupAux : List Str → List Str → List Str
  | [], _ => []
  | x :: xs, seen => if x ∈ seen then dedupAux xs seen else x :: dedupAux xs (x :: seen)

/-- Deduplicates keeping first occurrences. -/
def dedupFirst (xs : List Str) : List Str := dedupAux xs []

/-- `CommandExecutor.findUnterminatedHeredoc`: the unique pending markers, or
`none` when every opener has a later closing line.  (The JS function renders
the markers into an error message string; the model returns the marker list
the message is built from.) -/
def findUnterminatedHeredoc (command : Str) : Option (List Str) :=
  let pending := (scanOpeners command).filter
    (fun om => !(anyLineEq (command.drop om.1) om.2))
  if pending = [] then none else some (dedupFirst (pending.map Prod.snd))

/-! ### The heredoc fast path (`CommandExecutor.tryHandleHeredocCommand`)

The first line (trimmed) is matched against
`/^cat\s+(>?>)\s+(.+?)\s+<<\s*(['"]?)([A-Za-z0-9_-]+)\3\s*$/`.
Compilation notes: the leading `\s+` runs take maximal whitespace (the next
required character, `>` or `<`, is never whitespace); the group `(>?>)`
greedily takes `>>` and the single-`>` fallback can never succeed after `>>`
fails, because it would leave `>` where `\s+` is required; the lazy `(.+?)`
is resolved by trying, for the `\s+` before it, runs from maximal down to one
character and, inside each, path lengths from one upwards — exactly the JS
backtracking order (the path may itself consume whitespace when the
surrounding `\s+` runs shrink). -/

/-- Word character of the cat-heredoc terminator class `[A-Za-z0-9_-]`. -/
def hdWordCh (c : Char) : Bool := wordCh c || c = '-'

/-- Matches `\s+<<\s*(['"]?)([A-Za-z0-9_-]+)\3\s*$` against the text after
the lazily-matched path, returning the terminator. -/
def catTail (s : Str) : Option Str :=
  match s with
  | c :: r =>
    if jsWs c then
      match r.dropWhile jsWs with
      | '<' :: '<' :: r2 =>
        let r3 := r2.dropWhile jsWs
        match r3 with
        | '\'' :: r4 =>
          let w := r4.takeWhile hdWordCh
          (match r4.dropWhile hdWordCh with
           | '\'' :: r5 => if w ≠ [] ∧ r5.all jsWs then some w else none
           | _ => none)
        | '"' :: r4 =>
          let w := r4.takeWhile hdWordCh
          (match r4.dropWhile hdWordCh with
           | '"' :: r5 => if w ≠ [] ∧ r5.all jsWs then some w else none
           | _ => none)
        | _ =>
          let w := r3.takeWhile hdWordCh
          if w ≠ [] ∧ (r3.dropWhile hdWordCh).all jsWs then some w else none
      | _ => none
    else none
  | [] => none

/-- The lazy `(.+?)` loop: extends the path one character at a time (a `.`
matches neither newline nor carriage return), trying the tail after each
extension; returns the path and terminator of the first success. -/
def lazyPath (accRev : Str) : Str → Option (Str × Str)
  | [] => none
  | c :: rest =>
    if c = '\n' ∨ c = '\r' then none
    else
      match catTail rest with
      | some term => some ((c :: accRev).reverse, term)
      | none => lazyPath (c :: accRev) rest

/-- Backtracking of the `\s+` before the path: consumes `n` whitespace
characters (from maximal down to one) and runs the lazy path on the rest. -/
def tryWs1 : Nat → Str → Option (Str × Str)
  | 0, _ => none
  | n + 1, s =>
    match lazyPath [] (s.drop (n + 1)) with
    | some r => some r
    | none => tryWs1 n s

/-- Matches `\s+(.+?)\s+<< ...` after the redirection operator. -/
def afterOp (s : Str) : Option (Str × Str) :=
  tryWs1 (s.takeWhile jsWs).length s

/-- Matches the whole first-line pattern; returns
(`true` for `>>` append / `false` for `>` overwrite, raw path capture,
terminator). -/
def matchCatHeredoc (firstLine : Str) : Option (Bool × Str × Str) :=
  match firstLine with
  | 'c' :: 'a' :: 't' :: r =>
    (match r with
     | c :: r1 =>
       if jsWs c then
         let r2 := r1.dropWhile jsWs
         (match r2 with
          | '>' :: '>' :: r3 => (afterOp r3).map (fun pt => (true, pt.1, pt.2))
          | '>' :: r3 => (afterOp r3).map (fun pt => (false, pt.1, pt.2))
          | _ => none)
       else none
     | [] => none)
  | _ => none

/-- The symmetric-quote strip applied to the trimmed path capture.  (For a
one-character path JavaScript's `substring(1, 0)` swaps its arguments and
returns the string unchanged, hence the length guard.) -/
def stripQuotes (p : Str) : Str :=
  if 2 ≤ p.length ∧
      ((p.head? = some '"' ∧ p.getLast? = some '"') ∨
       (p.head? = some '\'' ∧ p.getLast? = some '\'')) then
    (p.drop 1).dropLast
  else p

/-- `line.replace(/\r$/, '')`: strips one trailing carriage return. -/
def stripCr (l : Str) : Str := if l.getLast? = some '\r' then l.dropLast else l

/-- The `findIndex` loop for the closing line (`idx > 0` and the
carriage-return-stripped line equals the terminator). -/
def closingGo (term : Str) : List Str → Nat → Option Nat
  | [], _ => none
  | l :: ls, i => if 0 < i ∧ stripCr l = term then some i else closingGo term ls (i + 1)

/-- First closing-line index for a terminator. -/
def findClosingIdx (lines : List Str) (term : Str) : Option Nat :=
  closingGo term lines 0

/-- Outcome of the heredoc fast path: a file write (the filesystem effect is
recorded as data; the `catch` branch for a failing write is an external I/O
condition outside the model) or the unterminated-block rejection. -/
inductive HeredocOutcome where
  | written (isAppend : Bool) (targetPath : Str) (content : Str) (lineCount : Nat)
  | unterminated (terminator : Str)
  deriving DecidableEq, Repr

/-- The heredoc body written to the file: the lines between the opener and
the closing line, joined with newlines, with one newline appended when the
body is non-empty and does not already end in one. -/
def heredocContent (contentLines : List Str) : Str :=
  if List.intercalate ['\n'] contentLines ≠ [] ∧
      (List.intercalate ['\n'] contentLines).getLast? ≠ some '\n' then
    List.intercalate ['\n'] contentLines ++ ['\n']
  else List.intercalate ['\n'] contentLines

/-- `CommandExecutor.tryHandleHeredocCommand`. -/
def tryHandleHeredocCommand (command : Str) : Option HeredocOutcome :=
  match (jsSplit '\n' command).head? with
  | none => none
  | some l0 =>
    match matchCatHeredoc (jsTrim l0) with
    | none => none
    | some (isAppend, rawPath, term) =>
      match findClosingIdx (jsSplit '\n' command) term with
      | none => some (HeredocOutcome.unterminated term)
      | some ci =>
        some (HeredocOutcome.written isAppend (stripQuotes (jsTrim rawPath))
          (heredocContent (((jsSplit '\n' command).take ci).drop 1))
          (((jsSplit '\n' command).take ci).drop 1).length)

/-! ### `CommandExecutor.executeCommand`

The pre-execution decision sequence of `executeCommand`
(`src/src/CommandExecutor.mjs`, lines 21-110), with each resolved result
object represented by a constructor.  The non-string `INVALID_COMMAND`
branch is ruled out by typing.  The final branch spawns
`/bin/sh -c trimmedCommand`; the spawn and its asynchronous completion are
external process I/O represented by the `spawn` constructor. -/

/-- `CommandExecutor.MAX_COMMAND_LINES`. -/
def MAX_COMMAND_LINES : Nat := 20

/-- The possible resolutions of `executeCommand`. -/
inductive ExecResult where
  | paused
  | emptyCommand
  | forbidden (command : Str)
  | unterminatedHeredoc (markers : List Str)
  | heredocUnterminated (terminator : Str)
  | heredocWrite (isAppend : Bool) (targetPath : Str) (content : Str) (lineCount : Nat)
  | tooLong (lineCount : Nat)
  | spawn (shellCommand : Str)
  deriving DecidableEq, Repr

/-- The `success` field of the resolved result object (`none` for a spawned
process, whose status depends on the process exit code). -/
def ExecResult.successFlag : ExecResult → Option Bool
  | ExecResult.paused => some true
  | ExecResult.heredocWrite _ _ _ _ => some true
  | ExecResult.spawn _ => none
  | _ => some false

/-- `CommandExecutor.executeCommand` as a decision function from the stored
forbidden list and the command text to the resolved outcome. -/
def executeCommand (forbidden : List Str) (command : Str) : ExecResult :=
  if lower (jsTrim command) = str "pause" ∨ lower (jsTrim command) = str "exit" then
    ExecResult.paused
  else if jsTrim command = [] then ExecResult.emptyCommand
  else if isCommandForbidden forbidden (jsTrim command) then
    ExecResult.forbidden (jsTrim command)
  else
    match findUnterminatedHeredoc (jsTrim command) with
    | some ms => ExecResult.unterminatedHeredoc ms
    | none =>
      match tryHandleHeredocCommand command with
      | some (HeredocOutcome.written a p c n) => ExecResult.heredocWrite a p c n
      | some (HeredocOutcome.unterminated t) => ExecResult.heredocUnterminated t
      | none =>
        if MAX_COMMAND_LINES < (jsSplit '\n' command).length then
          ExecResult.tooLong (jsSplit '\n' command).length
        else ExecResult.spawn (jsTrim command)

/-! ### The agent context stack (`DeepSeekCLI`)

The interactive CLI keeps `this.agentStack` (root at index 0, current agent
at the last index) and mirrors the top context's fields into `this.*` via
`applyContext`.  `createAgentContext` resolves the agent definition from the
configured roster and throws before any stack mutation when the identifier
is unknown.  Session/conversation handles, prompt files and the task loop
run inside `pushAgentContext` are external I/O; the model keeps the stack
bookkeeping and the identifier data.  The `Date.now()` suffix of a session
namespace is an environment input, passed in as `nonce`. -/

/-- One configured agent (`config.agents` entry). -/
structure AgentDef where
  id : Str
  systemPrompt : Str
  deriving DecidableEq, Repr

/-- The runtime bundle behind one active agent instance. -/
structure AgentContext where
  agentId : Str
  sessionNamespace : Option Str
  autoPopOnComplete : Bool
  deriving DecidableEq, Repr

/-- The CLI's stack state: `agentStack` plus the fields `applyContext`
mirrors (represented by the mirrored context). -/
structure CLIState where
  agentStack : List AgentContext
  current : Option AgentContext
  deriving DecidableEq, Repr

/-- `this.currentAgentId`. -/
def currentId (st : CLIState) : Option Str := st.current.map AgentContext.agentId

/-- `DeepSeekCLI.applyContext`. -/
def applyContext (st : CLIState) (ctx : AgentContext) : CLIState :=
  { st with current := some ctx }

/-- `DeepSeekCLI.getAgentDefinition`: roster lookup, throwing
`Agent "id" not found in configuration` when absent. -/
def getAgentDefinition (roster : List AgentDef) (agentId : Str) : Except Str AgentDef :=
  match roster.find? (fun d => decide (d.id = agentId)) with
  | some a => Except.ok a
  | none => Except.error (str "Agent \"" ++ agentId ++ str "\" not found in configuration")

/-- `DeepSeekCLI.createAgentContext` (the session-manager and executor
objects it allocates are external; the context record keeps the data the
stack logic reads). -/
def createAgentContext (roster : List AgentDef) (nonce : Str) (agentId : Str)
    (isRoot : Bool) : Except Str AgentContext :=
  (getAgentDefinition roster agentId).map fun _ =>
    { agentId := agentId
      sessionNamespace := if isRoot then none else some (agentId ++ str "_" ++ nonce)
      autoPopOnComplete := false }

/-- `DeepSeekCLI.pushAgentContext`: resolves the definition (throwing before
any stack mutation on an unknown identifier), pushes the new context and
makes it current.  With an initial prompt the JS code then runs the task
loop and possibly auto-pops; those steps involve model/network I/O and are
outside the stack model (their stack effects are the modelled `pop`
operations). -/
def pushAgentContext (roster : List AgentDef) (nonce : Str) (st : CLIState)
    (agentId : Str) (initialPrompt : Option Str) : Except Str CLIState :=
  match createAgentContext roster nonce agentId (decide (st.agentStack.length = 0)) with
  | Except.error e => Except.error e
  | Except.ok ctx0 =>
    let ctx := { ctx0 with autoPopOnComplete := initialPrompt.isSome }
    Except.ok (applyContext { st with agentStack := st.agentStack ++ [ctx] } ctx)

/-- `DeepSeekCLI.launchAgentFromUserCommand`: wraps the push in a catch
which (a) pops the failed context when one was pushed for this identifier
and (b) re-applies the top context.  Returns the new state and whether an
error was reported. -/
def launchAgentFromUserCommand (roster : List AgentDef) (nonce : Str) (st : CLIState)
    (agentId : Str) (message : Option Str) : CLIState × Bool :=
  match pushAgentContext roster nonce st agentId message with
  | Except.ok st2 => (st2, false)
  | Except.error _ =>
    let st1 :=
      if 1 < st.agentStack.length ∧ currentId st = some agentId then
        { st with agentStack := st.agentStack.dropLast }
      else st
    let st2 :=
      match st1.agentStack.getLast? with
      | some c => applyContext st1 c
      | none => st1
    (st2, true)

/-- `AgentRunner.runAgent`'s config lookup: the module throws
`Agent "id" not found in config.` before touching its module-level
`agentStack` (the push at line 101 only happens after resolution). -/
def runAgentResolve (agents : List AgentDef) (agentId : Str) : Except Str AgentDef :=
  match agents.find? (fun d => decide (d.id = agentId)) with
  | some a => Except.ok a
  | none => Except.error (str "Agent \"" ++ agentId ++ str "\" not found in config.")

/-- The effect of `runAgent` on the `AgentRunner` module stack of agent ids:
an unknown identifier errors with the stack untouched; a known identifier is
pushed (and popped again in the `finally` when the run ends). -/
def runAgentStack (agents : List AgentDef) (stack : List Str) (agentId : Str) :
    Except Str (List Str) :=
  match runAgentResolve agents agentId with
  | Except.error e => Except.error e
  | Except.ok _ => Except.ok (stack ++ [agentId])

/-- `DeepSeekCLI.launchAgentFromAI`: model-issued delegation runs
`runAgent` (which uses its own module stack) inside a catch that only logs;
the CLI's own agent stack is untouched on both paths.  Returns the CLI state
and whether an error was reported. -/
def launchAgentFromAI (agents : List AgentDef) (st : CLIState) (agentId : Str) :
    CLIState × Bool :=
  match runAgentResolve agents agentId with
  | Except.error _ => (st, true)
  | Except.ok _ => (st, false)

/-- `DeepSeekCLI.popAgentContext`: refuses when only the root remains;
otherwise removes the top context (archiving/cleanup of its session is
external I/O) and re-applies the parent.  Returns the JS boolean and the new
state.  (The `none` branch of `getLast?` is unreachable: the popped stack
still has at least one element.) -/
def popAgentContext (st : CLIState) : Bool × CLIState :=
  if st.agentStack.length ≤ 1 then (false, st)
  else
    match st.agentStack.dropLast.getLast? with
    | some parent =>
      (true, applyContext { st with agentStack := st.agentStack.dropLast } parent)
    | none => (true, { st with agentStack := st.agentStack.dropLast })

/-- A stack operation: a successful push (`pushAgentContext`'s stack effect;
a failed push leaves the state unchanged, see the claim-C9 theorem) or a
pop. -/
inductive StackOp where
  | push (ctx : AgentContext)
  | pop
  deriving DecidableEq, Repr

/-- Applies one stack operation. -/
def applyOp (st : CLIState) : StackOp → CLIState
  | StackOp.push ctx => { agentStack := st.agentStack ++ [ctx], current := some ctx }
  | StackOp.pop => (popAgentContext st).2

/-- Applies a sequence of stack operations. -/
def applyOps (ops : List StackOp) (st : CLIState) : CLIState :=
  ops.foldl applyOp st

/-! ### Helper lemmas -/

theorem takeDropComm : ∀ (l : Str) (i n : Nat), (l.drop i).take n = (l.take (i + n)).drop i := by
  intro l
  induction l with
  | nil => intro i n; simp
  | cons c cs ih =>
    intro i n
    cases i with
    | zero => simp
    | succ j =>
      simp only [List.drop_succ_cons, Nat.succ_add, List.take_succ_cons]
      exact ih j n

theorem take_agree {s₁ s₂ : Str} {m : Nat} (h : s₁.take m = s₂.take m)
    {i n : Nat} (hle : i + n ≤ m) :
    (s₁.drop i).take n = (s₂.drop i).take n := by
  rw [takeDropComm, takeDropComm]
  have h1 : s₁.take (i + n) = (s₁.take m).take (i + n) := by
    rw [List.take_take, Nat.min_eq_left hle]
  have h2 : s₂.take (i + n) = (s₂.take m).take (i + n) := by
    rw [List.take_take, Nat.min_eq_left hle]
  rw [h1, h2, h]

theorem startsList_agree {pat s₁ s₂ : Str} {m : Nat} (h : s₁.take m = s₂.take m)
    {i : Nat} (hle : i + pat.length ≤ m) :
    startsList pat (s₁.drop i) = startsList pat (s₂.drop i) := by
  cases h1 : startsList pat (s₁.drop i) with
  | true =>
    have := (startsList_iff pat (s₁.drop i)).mp h1
    rw [take_agree h hle] at this
    exact ((startsList_iff pat (s₂.drop i)).mpr this).symm
  | false =>
    cases h2 : startsList pat (s₂.drop i) with
    | false => rfl
    | true =>
      have := (startsList_iff pat (s₂.drop i)).mp h2
      rw [← take_agree h hle] at this
      rw [(startsList_iff pat (s₁.drop i)).mpr this] at h1
      exact h1.symm

theorem findSub_append_marker (pat a rest : Str) (hne : pat ≠ [])
    (h : hasSub pat (a ++ pat.take (pat.length - 1)) = false) :
    findSub pat (a ++ (pat ++ rest)) = some a.length := by
  have hplen : 1 ≤ pat.length := by
    cases pat with
    | nil => exact absurd rfl hne
    | cons x xs => simp
  apply findSub_of hne
  · rw [List.drop_left]
    exact startsList_append pat rest
  · intro i hi
    have hagree : (a ++ (pat ++ rest)).take (a.length + (pat.length - 1)) =
        (a ++ pat.take (pat.length - 1)).take (a.length + (pat.length - 1)) := by
      rw [List.take_append, List.take_append]
      congr 1
      rw [List.take_take, Nat.min_self]
      exact List.take_append_of_le_length (by omega)
    have hle : i + pat.length ≤ a.length + (pat.length - 1) := by omega
    rw [startsList_agree hagree hle]
    exact hasSub_false hne h i

theorem hasSub_findSub_none {pat s : Str} (hne : pat ≠ []) (h : hasSub pat s = false) :
    findSub pat s = none :=
  findSub_none_of (hasSub_false hne h)

theorem startsList_three_le {pat s : Str} {p : Nat} (h : findSub pat s = some p)
    (hl : pat.length = 3) : p + 3 ≤ s.length := by
  have := startsList_length (findSub_some h)
  rw [hl] at this
  have hd : (s.drop p).length = s.length - p := by simp
  rw [hd] at this
  by_cases hp : p ≤ s.length
  · omega
  · exfalso
    have : s.drop p = [] := List.drop_eq_nil_of_le (by omega)
    have h2 := findSub_some h
    rw [this] at h2
    cases pat with
    | nil => simp at hl
    | cons x xs => simp [startsList] at h2

/-! Lemmas about `appendChat`: chat segments never produce shell actions,
and with no agent-matching line they produce only comments. -/

theorem flushBuf_no_shell (buf : List Str) :
    (flushBuf buf).filterMap shellContent = [] := by
  unfold flushBuf
  split
  · rfl
  · split
    · rfl
    · simp [shellContent]

theorem chatGo_no_shell : ∀ (ls buf : List Str),
    (chatGo ls buf).filterMap shellContent = [] := by
  intro ls
  induction ls with
  | nil => intro buf; exact flushBuf_no_shell buf
  | cons raw ls ih =>
    intro buf
    unfold chatGo
    split
    · rw [List.filterMap_append, flushBuf_no_shell, ih]
      rfl
    · split
      · rw [List.filterMap_append, flushBuf_no_shell]
        simp only [List.nil_append]
        simp only [List.filterMap_cons, shellContent]
        exact ih []
      · exact ih _

theorem appendChat_no_shell (seg : Str) :
    (appendChat seg).filterMap shellContent = [] := by
  unfold appendChat
  split
  · rfl
  · exact chatGo_no_shell _ []

theorem flushBuf_comments (buf : List Str) :
    ∀ a ∈ flushBuf buf, ∃ c, a = Action.comment c := by
  unfold flushBuf
  split
  · intro a ha; simp at ha
  · split
    · intro a ha; simp at ha
    · intro a ha
      simp only [List.mem_singleton] at ha
      exact ⟨_, ha⟩

theorem chatGo_comments : ∀ (ls buf : List Str),
    (∀ l ∈ ls, agentMatch (jsTrim l) = none) →
    ∀ a ∈ chatGo ls buf, ∃ c, a = Action.comment c := by
  intro ls
  induction ls with
  | nil => intro buf _ a ha; exact flushBuf_comments buf a ha
  | cons raw ls ih =>
    intro buf hagent a ha
    have hraw : agentMatch (jsTrim raw) = none := hagent raw (by simp)
    have hrest : ∀ l ∈ ls, agentMatch (jsTrim l) = none :=
      fun l hl => hagent l (by simp [hl])
    unfold chatGo at ha
    split at ha
    · rw [List.mem_append] at ha
      cases ha with
      | inl h => exact flushBuf_comments buf a h
      | inr h => exact ih [] hrest a h
    · rw [hraw] at ha
      exact ih _ hrest a ha

theorem appendChat_comments (seg : Str)
    (h : ∀ l ∈ jsSplit '\n' seg, agentMatch (jsTrim l) = none) :
    ∀ a ∈ appendChat seg, ∃ c, a = Action.comment c := by
  unfold appendChat
  split
  · intro a ha; simp at ha
  · exact chatGo_comments _ [] h

/-! Fuel adequacy for the marker-scanning loop. -/

theorem parseScanF_fuel : ∀ (f₁ f₂ : Nat) (s : Str) (base : Nat),
    s.length < f₁ → s.length < f₂ → parseScanF f₁ s base = parseScanF f₂ s base := by
  intro f₁
  induction f₁ with
  | zero => intro f₂ s base h1 _; omega
  | succ n ih =>
    intro f₂ s base h1 h2
    cases f₂ with
    | zero => omega
    | succ m =>
      simp only [parseScanF]
      cases hop : findSub mOpen s with
      | none => rfl
      | some p =>
        dsimp only
        cases hcl : findSub mClose (s.drop (p + 3)) with
        | none => rfl
        | some q =>
          dsimp only
          have hp3 : p + 3 ≤ s.length := startsList_three_le hop rfl
          have hq3 : q + 3 ≤ (s.drop (p + 3)).length := startsList_three_le hcl rfl
          have hlen : ((s.drop (p + 3)).drop (q + 3)).length < s.length := by
            simp only [List.length_drop] at hq3 ⊢
            omega
          rw [ih m ((s.drop (p + 3)).drop (q + 3)) (base + p + 3 + q + 3)
            (by omega) (by omega)]

theorem parseScan_eq (s : Str) (base : Nat) :
    parseScan s base =
      match findSub mOpen s with
      | none => (appendChat s, [])
      | some p =>
        match findSub mClose (s.drop (p + 3)) with
        | none =>
          (appendChat (s.take p) ++ appendChat (s.drop p),
           [⟨base + p, (s.drop p).take 200⟩])
        | some q =>
          (appendChat (s.take p) ++
             (if jsTrim ((s.drop (p + 3)).take q) = [] then []
              else [Action.shell (jsTrim ((s.drop (p + 3)).take q))]) ++
             (parseScan ((s.drop (p + 3)).drop (q + 3)) (base + p + 3 + q + 3)).1,
           (parseScan ((s.drop (p + 3)).drop (q + 3)) (base + p + 3 + q + 3)).2) := by
  unfold parseScan
  conv_lhs => rw [parseScanF]
  cases hop : findSub mOpen s with
  | none => rfl
  | some p =>
    dsimp only
    cases hcl : findSub mClose (s.drop (p + 3)) with
    | none => rfl
    | some q =>
      dsimp only
      have hp3 : p + 3 ≤ s.length := startsList_three_le hop rfl
      have hq3 : q + 3 ≤ (s.drop (p + 3)).length := startsList_three_le hcl rfl
      have hlen : ((s.drop (p + 3)).drop (q + 3)).length < s.length := by
        simp only [List.length_drop] at hq3 ⊢
        omega
      rw [parseScanF_fuel s.length (((s.drop (p + 3)).drop (q + 3)).length + 1)
        ((s.drop (p + 3)).drop (q + 3)) (base + p + 3 + q + 3) hlen (by omega)]

/-! ### Claim C1 -/

/-- Claim C1, counterexample: the claim asserts that
`isForbidden("rm -rf /tmp/foo")` and `isForbidden("rm -rf /etc")` are false
under the configured default deny-list.  The source
(`src/src/CommandExecutor.mjs`, line 17) matches with a plain
`startsWith(forbidden)` and no word-boundary requirement, so both commands
are forbidden: the entry `rm -rf /` is a prefix of both cleaned commands. -/
theorem claimC1_counterexample :
    isCommandForbidden (mkForbidden defaultForbidden) (str "rm -rf /tmp/foo") = true ∧
    isCommandForbidden (mkForbidden defaultForbidden) (str "rm -rf /etc") = true := by
  decide

/-- Claim C1, amended: forbidden-command matching is plain prefix matching
on the cleaned (comment-stripped, trimmed, lower-cased) command: the check
succeeds iff some configured entry, lowercased, is a prefix of the cleaned
command (equality being the degenerate prefix); consequently
`isForbidden("rm -rf /")`, `isForbidden("rm -rf /; echo hi")`,
`isForbidden("rm -rf /tmp/foo")` and `isForbidden("rm -rf /etc")` are all
true under the default deny-list. -/
theorem claimC1_theorem :
    (∀ (raw : List Str) (command : Str),
      isCommandForbidden (mkForbidden raw) command = true ↔
        ∃ f ∈ raw, startsList (lower f) (cleanCommand command) = true)
    ∧ isCommandForbidden (mkForbidden defaultForbidden) (str "rm -rf /") = true
    ∧ isCommandForbidden (mkForbidden defaultForbidden) (str "rm -rf /; echo hi") = true
    ∧ isCommandForbidden (mkForbidden defaultForbidden) (str "rm -rf /tmp/foo") = true
    ∧ isCommandForbidden (mkForbidden defaultForbidden) (str "rm -rf /etc") = true := by
  refine ⟨?_, by decide, by decide, by decide, by decide⟩
  intro raw command
  unfold isCommandForbidden mkForbidden
  simp only [List.any_map, List.any_eq_true, Function.comp]
  constructor
  · rintro ⟨f, hf, hpred⟩
    rw [Bool.or_eq_true, decide_eq_true_eq] at hpred
    refine ⟨f, hf, ?_⟩
    cases hpred with
    | inl heq => rw [heq]; exact startsList_refl _
    | inr hs => exact hs
  · rintro ⟨f, hf, hs⟩
    refine ⟨f, hf, ?_⟩
    rw [Bool.or_eq_true]
    exact Or.inr hs

/-! ### Claim C4 -/

/-- Spec-side description, for the amended claim C4, of the replies accepted
by the agent loop's terminal-reply regex: the trimmed reply is a sentinel
word (case-insensitively), optionally prefixed by the legacy `>>` marker
followed by whitespace. -/
def terminalReplySpec (response : Str) : Prop :=
  sentinelWord (lower (jsTrim response)) = true ∨
    ∃ ws core : Str, (∀ c ∈ ws, jsWs c = true) ∧
      jsTrim response = '>' :: '>' :: (ws ++ core) ∧ sentinelWord (lower core) = true

theorem dropWhile_all_append {p : Char → Bool} {ws : Str} (core : Str)
    (h : ∀ c ∈ ws, p c = true) :
    (ws ++ core).dropWhile p = core.dropWhile p := by
  induction ws with
  | nil => rfl
  | cons c cs ih =>
    simp only [List.cons_append, List.dropWhile_cons, h c (by simp)]
    exact ih (fun x hx => h x (by simp [hx]))

theorem sentinel_head_not_ws {c : Char} {cs : Str}
    (h : sentinelWord (lower (c :: cs)) = true) : jsWs c = false := by
  have hexit : str "exit" = 'e' :: 'x' :: 'i' :: 't' :: [] := rfl
  have hpause : str "pause" = 'p' :: 'a' :: 'u' :: 's' :: 'e' :: [] := rfl
  have hdone : str "done" = 'd' :: 'o' :: 'n' :: 'e' :: [] := rfl
  unfold sentinelWord lower at h
  simp only [List.map_cons, Bool.or_eq_true, decide_eq_true_eq, hexit, hpause, hdone,
    List.cons.injEq] at h
  have hc : c.toLower = 'e' ∨ c.toLower = 'p' ∨ c.toLower = 'd' := by
    rcases h with (⟨h1, _⟩ | ⟨h1, _⟩) | ⟨h1, _⟩
    · exact Or.inl h1
    · exact Or.inr (Or.inl h1)
    · exact Or.inr (Or.inr h1)
  cases hws : jsWs c with
  | false => rfl
  | true =>
    exfalso
    unfold jsWs at hws
    simp only [Bool.or_eq_true, decide_eq_true_eq] at hws
    rcases hws with ((((h1 | h1) | h1) | h1) | h1) | h1 <;> subst h1 <;>
      revert hc <;> decide

theorem sentinel_dropWhile_self {core : Str}
    (h : sentinelWord (lower core) = true) : core.dropWhile jsWs = core := by
  cases core with
  | nil => rfl
  | cons c cs =>
    simp only [List.dropWhile_cons, sentinel_head_not_ws h, Bool.false_eq_true, if_false]

/-- Claim C4, counterexample: the claim asserts that a reply whose trimmed
text is a sentinel wrapped in the command markers (such as `>>> done <<<`)
is a terminal signal for the task loop.  On the code, the agent loop's
reply-level check `/^(>>\s*)?(exit|pause|done)$/i` rejects it, the parser
turns it into the shell action `done`, the interactive loop's shell-sentinel
break (which tests only `pause` and `exit`) does not fire, and
`executeCommand` spawns a shell for it rather than pausing — so neither
loop treats the reply as terminal. -/
theorem claimC4_counterexample :
    isTerminalReply (str ">>> done <<<") = false ∧
    (parseAIResponse (str ">>> done <<<")).actions = [Action.shell (str "done")] ∧
    shellSentinelBreak (str "done") = false ∧
    executeCommand [] (str "done") = ExecResult.spawn (str "done") := by
  decide

/-- Claim C4, amended: the agent-runner loop's reply-level terminal check
accepts exactly the replies whose trimmed text is, case-insensitively,
`exit`, `pause` or `done`, optionally prefixed by the legacy `>>` marker
and whitespace (marker-wrapped sentinels are not accepted); the interactive
task loop instead breaks on a parsed shell action whose lowercased content
is `pause` or `exit` (not `done`). -/
theorem claimC4_theorem :
    (∀ response : Str, isTerminalReply response = true ↔ terminalReplySpec response)
    ∧ (∀ content : Str, shellSentinelBreak content = true ↔
        (lower content = str "pause" ∨ lower content = str "exit"))
    ∧ isTerminalReply (str "exit") = true
    ∧ isTerminalReply (str "  PAUSE ") = true
    ∧ isTerminalReply (str ">> done") = true
    ∧ isTerminalReply (str ">>> done <<<") = false := by
  refine ⟨?_, ?_, by decide, by decide, by decide, by decide⟩
  · intro response
    unfold isTerminalReply sentinelRegexAccepts terminalReplySpec
    rw [Bool.or_eq_true]
    constructor
    · rintro (h | h)
      · exact Or.inl h
      · right
        split at h
        · rename_i c1 c2 r heq
          simp only [Bool.and_eq_true, decide_eq_true_eq] at h
          obtain ⟨⟨hc1, hc2⟩, hs⟩ := h
          subst hc1; subst hc2
          refine ⟨r.takeWhile jsWs, r.dropWhile jsWs, ?_, ?_, hs⟩
          · intro x hx; exact List.mem_takeWhile_imp hx
          · rw [List.takeWhile_append_dropWhile]
            exact heq
        · exact absurd h (by simp)
    · rintro (h | ⟨ws, core, hws, heq, hcore⟩)
      · exact Or.inl h
      · right
        rw [heq]
        dsimp only
        rw [dropWhile_all_append core hws, sentinel_dropWhile_self hcore]
        simp [hcore]
  · intro content
    unfold shellSentinelBreak
    rw [Bool.or_eq_true, decide_eq_true_eq, decide_eq_true_eq]

/-! ### Claim C10 -/

theorem getLast?_of_ne_nil {α : Type} (l : List α) (h : l ≠ []) :
    ∃ a, l.getLast? = some a := by
  induction l with
  | nil => exact absurd rfl h
  | cons x xs ih =>
    cases xs with
    | nil => exact ⟨x, rfl⟩
    | cons y ys =>
      obtain ⟨a, ha⟩ := ih (by simp)
      exact ⟨a, by rw [List.getLast?_cons_cons]; exact ha⟩

theorem head?_dropLast {α : Type} (l : List α) (h : 1 < l.length) :
    l.dropLast.head? = l.head? := by
  cases l with
  | nil => simp at h
  | cons a t =>
    cases t with
    | nil => simp at h
    | cons b t2 => simp [List.dropLast]

theorem head?_append_ne_nil {α : Type} (l : List α) (c : α) (h : l ≠ []) :
    (l ++ [c]).head? = l.head? := by
  cases l with
  | nil => exact absurd rfl h
  | cons a t => rfl

/-- Claim C10 (confirmed): `popAgentContext` never removes the root context:
with at most one context on the stack it returns `false` and changes
nothing; with more than one it returns `true`, removes exactly the top
context and makes the parent current; and along any sequence of push and
pop operations a stack that starts non-empty stays non-empty with the same
root at the bottom. -/
theorem claimC10_theorem :
    (∀ st : CLIState, st.agentStack.length ≤ 1 → popAgentContext st = (false, st))
    ∧ (∀ st : CLIState, 1 < st.agentStack.length →
        (popAgentContext st).1 = true ∧
        (popAgentContext st).2.agentStack = st.agentStack.dropLast ∧
        (popAgentContext st).2.current = st.agentStack.dropLast.getLast?)
    ∧ (∀ (ops : List StackOp) (st : CLIState), st.agentStack ≠ [] →
        (applyOps ops st).agentStack ≠ [] ∧
        (applyOps ops st).agentStack.head? = st.agentStack.head?) := by
  have hpop : ∀ st : CLIState, 1 < st.agentStack.length →
      (popAgentContext st).1 = true ∧
      (popAgentContext st).2.agentStack = st.agentStack.dropLast ∧
      (popAgentContext st).2.current = st.agentStack.dropLast.getLast? := by
    intro st h
    have hne : st.agentStack.dropLast ≠ [] := by
      have := List.length_dropLast st.agentStack
      intro hnil
      rw [hnil] at this
      simp at this
      omega
    obtain ⟨a, ha⟩ := getLast?_of_ne_nil _ hne
    unfold popAgentContext
    rw [if_neg (by omega)]
    rw [ha]
    exact ⟨rfl, rfl, by simp [applyContext, ha]⟩
  refine ⟨?_, hpop, ?_⟩
  · intro st h
    unfold popAgentContext
    rw [if_pos h]
  · intro ops
    induction ops with
    | nil => intro st h; exact ⟨h, rfl⟩
    | cons op ops ih =>
      intro st h
      have hstep : (applyOp st op).agentStack ≠ [] ∧
          (applyOp st op).agentStack.head? = st.agentStack.head? := by
        cases op with
        | push ctx =>
          constructor
          · simp [applyOp]
          · exact head?_append_ne_nil _ _ h
        | pop =>
          by_cases hlen : st.agentStack.length ≤ 1
          · have heq : applyOp st StackOp.pop = st := by
              unfold applyOp popAgentContext
              rw [if_pos hlen]
            rw [heq]
            exact ⟨h, rfl⟩
          · have h1 : 1 < st.agentStack.length := by omega
            obtain ⟨_, hstack, _⟩ := hpop st h1
            have hne : st.agentStack.dropLast ≠ [] := by
              have := List.length_dropLast st.agentStack
              intro hnil
              rw [hnil] at this
              simp at this
              omega
            constructor
            · show (popAgentContext st).2.agentStack ≠ []
              rw [hstack]; exact hne
            · show (popAgentContext st).2.agentStack.head? = _
              rw [hstack]
              exact head?_dropLast _ h1
      have := ih (applyOp st op) hstep.1
      refine ⟨this.1, ?_⟩
      rw [show applyOps (op :: ops) st = applyOps ops (applyOp st op) from rfl]
      rw [this.2, hstep.2]

/-- Sample root context shared by the stack-claim witnesses. -/
def sampleRoot : AgentContext :=
  { agentId := str "Generic", sessionNamespace := none, autoPopOnComplete := false }

/-- Sample child context shared by the stack-claim witnesses. -/
def sampleSub : AgentContext :=
  { agentId := str "Helper", sessionNamespace := some (str "Helper_x"), autoPopOnComplete := true }

/-- Witness for claim C10 at concrete stacks: a root-only stack refuses to
pop; a two-context stack pops to the root; pushing and double-popping from
a root-only stack keeps the root at the bottom. -/
theorem claimC10_witness :
    popAgentContext ⟨[sampleRoot], some sampleRoot⟩ = (false, ⟨[sampleRoot], some sampleRoot⟩)
    ∧ (popAgentContext ⟨[sampleRoot, sampleSub], some sampleSub⟩).1 = true
    ∧ (popAgentContext ⟨[sampleRoot, sampleSub], some sampleSub⟩).2.agentStack = [sampleRoot]
    ∧ (applyOps [StackOp.push sampleSub, StackOp.pop, StackOp.pop]
        ⟨[sampleRoot], some sampleRoot⟩).agentStack ≠ []
    ∧ (applyOps [StackOp.push sampleSub, StackOp.pop, StackOp.pop]
        ⟨[sampleRoot], some sampleRoot⟩).agentStack.head? = some sampleRoot := by
  refine ⟨claimC10_theorem.1 _ (by decide), (claimC10_theorem.2.1 _ (by decide)).1, ?_, ?_, ?_⟩
  · rw [(claimC10_theorem.2.1 ⟨[sampleRoot, sampleSub], some sampleSub⟩ (by decide)).2.1]
    decide
  · exact (claimC10_theorem.2.2 _ ⟨[sampleRoot], some sampleRoot⟩ (by simp)).1
  · exact (claimC10_theorem.2.2 _ ⟨[sampleRoot], some sampleRoot⟩ (by simp)).2

/-! ### Claim C9 -/

/-- Claim C9 (confirmed): pushing an agent context with an identifier absent
from the configured roster raises the agent-not-found condition and leaves
the agent context stack exactly as it was (same stack, same current
context), for the user-issued path (`launchAgentFromUserCommand`), the
model-issued path (`launchAgentFromAI`), and the `AgentRunner` module stack
(`runAgent` throws before its push). -/
theorem claimC9_theorem :
    ∀ (roster : List AgentDef) (nonce : Str) (st : CLIState) (agentId : Str)
      (msg : Option Str),
      (∀ d ∈ roster, d.id ≠ agentId) →
      st.agentStack ≠ [] →
      st.current = st.agentStack.getLast? →
      (∀ c ∈ st.agentStack, ∃ d ∈ roster, d.id = c.agentId) →
      launchAgentFromUserCommand roster nonce st agentId msg = (st, true)
      ∧ launchAgentFromAI roster st agentId = (st, true)
      ∧ (∀ stack : List Str, runAgentStack roster stack agentId =
          Except.error (str "Agent \"" ++ agentId ++ str "\" not found in config.")) := by
  intro roster nonce st agentId msg hunknown hne hcur hvalid
  have hfind : roster.find? (fun d => decide (d.id = agentId)) = none := by
    rw [List.find?_eq_none]
    intro d hd
    simp only [decide_eq_true_eq]
    exact hunknown d hd
  have hresolve : runAgentResolve roster agentId =
      Except.error (str "Agent \"" ++ agentId ++ str "\" not found in config.") := by
    unfold runAgentResolve
    rw [hfind]
  refine ⟨?_, ?_, fun stack => by unfold runAgentStack; rw [hresolve]⟩
  · obtain ⟨last, hlast⟩ := getLast?_of_ne_nil _ hne
    have hlastmem : last ∈ st.agentStack :=
      List.mem_of_mem_getLast? (Option.mem_def.mpr hlast)
    have hlastid : last.agentId ≠ agentId := by
      obtain ⟨d, hd, hid⟩ := hvalid last hlastmem
      intro hcontra
      exact hunknown d hd (hid.trans hcontra)
    unfold launchAgentFromUserCommand pushAgentContext createAgentContext getAgentDefinition
    rw [hfind]
    simp only [Except.map]
    have hcond : ¬(1 < st.agentStack.length ∧ currentId st = some agentId) := by
      rintro ⟨_, hcid⟩
      unfold currentId at hcid
      rw [hcur, hlast] at hcid
      simp only [Option.map_some', Option.some.injEq] at hcid
      exact hlastid hcid
    rw [if_neg hcond]
    rw [hlast]
    simp only [applyContext]
    have hcl : st.current = some last := by rw [hcur, hlast]
    rw [← hcl]
  · unfold launchAgentFromAI
    rw [hresolve]

/-- Witness for claim C9: pushing the unknown identifier `Ghost` onto a
root-only stack under a one-agent roster reports the error and leaves the
stack and current context unchanged on all three paths. -/
theorem claimC9_witness :
    launchAgentFromUserCommand [⟨str "Generic", str "p"⟩] (str "n")
        ⟨[sampleRoot], some sampleRoot⟩ (str "Ghost") none =
      (⟨[sampleRoot], some sampleRoot⟩, true)
    ∧ launchAgentFromAI [⟨str "Generic", str "p"⟩] ⟨[sampleRoot], some sampleRoot⟩
        (str "Ghost") = (⟨[sampleRoot], some sampleRoot⟩, true)
    ∧ runAgentStack [⟨str "Generic", str "p"⟩] [str "Generic"] (str "Ghost") =
      Except.error (str "Agent \"" ++ str "Ghost" ++ str "\" not found in config.") := by
  have h := claimC9_theorem [⟨str "Generic", str "p"⟩] (str "n")
    ⟨[sampleRoot], some sampleRoot⟩ (str "Ghost") none
    (by decide) (by decide) (by decide) (by decide)
  exact ⟨h.1, h.2.1, h.2.2 [str "Generic"]⟩

/-! ### Claim C7 -/

theorem matchOpenerAt_shape {s : Str} {x : Str × Nat} (h : matchOpenerAt s = some x) :
    ∃ r, s = '<' :: '<' :: r := by
  unfold matchOpenerAt at h
  split at h
  · rename_i r
    exact ⟨r, rfl⟩
  · exact absurd h (by simp)

theorem scanOpeners_mem : ∀ (fuel : Nat) (s : Str) (base : Nat) (om : Nat × Str),
    om ∈ scanOpenersF fuel s base → '<' ∈ s := by
  intro fuel
  induction fuel with
  | zero => intro s base om h; simp [scanOpenersF] at h
  | succ n ih =>
    intro s base om h
    unfold scanOpenersF at h
    split at h
    · simp at h
    · rename_i c rest
      split at h
      · rename_i pr hm
        obtain ⟨r, hr⟩ := matchOpenerAt_shape hm
        rw [hr]; simp
      · have := ih rest (base + 1) om h
        simp [this]

theorem lt_mem_sentinel_free {s : Str} (h : '<' ∈ s) :
    lower s ≠ str "pause" ∧ lower s ≠ str "exit" ∧ s ≠ [] := by
  have hml : '<' ∈ lower s := by
    have : Char.toLower '<' ∈ lower s := List.mem_map_of_mem Char.toLower h
    simpa using this
  refine ⟨?_, ?_, ?_⟩
  · intro hc; rw [hc] at hml; exact absurd hml (by decide)
  · intro hc; rw [hc] at hml; exact absurd hml (by decide)
  · intro hc; rw [hc] at h; exact absurd h (by simp)

/-- Claim C7, counterexample: the claim asserts the unterminated-heredoc
error for every command containing an opener with no later closing line,
but the forbidden-command check runs first: `mkfs <<EOF` followed by `x`
contains the pending opener `EOF` (first two conjuncts), yet
`executeCommand` rejects it as a forbidden command (the default deny-list
entry `mkfs` is a prefix), so the claimed unterminated-heredoc error is
never produced for it. -/
theorem claimC7_counterexample :
    (5, str "EOF") ∈ scanOpeners (jsTrim (str "mkfs <<EOF
x"))
    ∧ anyLineEq ((jsTrim (str "mkfs <<EOF
x")).drop 5) (str "EOF") = false
    ∧ executeCommand (mkForbidden defaultForbidden) (str "mkfs <<EOF
x") =
        ExecResult.forbidden (jsTrim (str "mkfs <<EOF
x")) := by
  decide

/-- Claim C7, amended: for every command containing a here-document opener
whose identifier has no later closing line (as detected by the scanner of
`findUnterminatedHeredoc`), provided the command is not caught by the
earlier forbidden-command check, `executeCommand` resolves with the
unterminated-heredoc failure before the spawn branch: the result is an
`unterminatedHeredoc` error with `success:false`, never a spawned shell
(the pause/exit and empty-command checks cannot fire, since a command with
an opener contains `<`). -/
theorem claimC7_theorem :
    ∀ (forbidden : List Str) (command : Str),
      isCommandForbidden forbidden (jsTrim command) = false →
      (∃ om ∈ scanOpeners (jsTrim command),
        anyLineEq ((jsTrim command).drop om.1) om.2 = false) →
      (∃ ms, executeCommand forbidden command = ExecResult.unterminatedHeredoc ms)
      ∧ (executeCommand forbidden command).successFlag = some false
      ∧ ∀ t, executeCommand forbidden command ≠ ExecResult.spawn t := by
  intro forbidden command hforb hopener
  obtain ⟨om, hmem, hline⟩ := hopener
  have hlt : '<' ∈ jsTrim command := scanOpeners_mem _ _ _ om hmem
  obtain ⟨hp, he, hne⟩ := lt_mem_sentinel_free hlt
  have hpend : (scanOpeners (jsTrim command)).filter
      (fun om => !(anyLineEq ((jsTrim command).drop om.1) om.2)) ≠ [] := by
    apply List.ne_nil_of_mem (a := om)
    rw [List.mem_filter]
    exact ⟨hmem, by rw [hline]; rfl⟩
  have hfind : findUnterminatedHeredoc (jsTrim command) =
      some (dedupFirst (((scanOpeners (jsTrim command)).filter
        (fun om => !(anyLineEq ((jsTrim command).drop om.1) om.2))).map Prod.snd)) := by
    unfold findUnterminatedHeredoc
    rw [if_neg hpend]
  have hexec : executeCommand forbidden command =
      ExecResult.unterminatedHeredoc (dedupFirst (((scanOpeners (jsTrim command)).filter
        (fun om => !(anyLineEq ((jsTrim command).drop om.1) om.2))).map Prod.snd)) := by
    unfold executeCommand
    rw [if_neg (by rintro (hc | hc); exact hp hc; exact he hc)]
    rw [if_neg hne]
    rw [if_neg (by rw [hforb]; simp)]
    rw [hfind]
  rw [hexec]
  exact ⟨⟨_, rfl⟩, rfl, fun t h => by cases h⟩

/-- Witness for claim C7: the command `cat <<EOF\necho hi` (no closing
`EOF` line) is rejected as an unterminated heredoc under the default
forbidden list, with `success:false` and no spawn. -/
theorem claimC7_witness :
    (∃ ms, executeCommand (mkForbidden defaultForbidden) (str "cat <<EOF\necho hi") =
      ExecResult.unterminatedHeredoc ms)
    ∧ (executeCommand (mkForbidden defaultForbidden)
        (str "cat <<EOF\necho hi")).successFlag = some false
    ∧ ∀ t, executeCommand (mkForbidden defaultForbidden) (str "cat <<EOF\necho hi") ≠
        ExecResult.spawn t :=
  claimC7_theorem (mkForbidden defaultForbidden) (str "cat <<EOF\necho hi")
    (by decide) ⟨(4, str "EOF"), by decide, by decide⟩

/-! ### Claim C2 -/

/-- Claim C2, counterexample: the claim asserts that every command whose
text has more than 20 lines is rejected with `COMMAND_TOO_LONG`.  The
line-count budget runs after several earlier checks: the command consisting
of `pause` followed by twenty newlines has 21 lines, yet `executeCommand`
resolves it as a successful pause (the sentinel check trims the text
first), not as `COMMAND_TOO_LONG`. -/
theorem claimC2_counterexample :
    (jsSplit '\n' (str "pause" ++ List.replicate 20 '\n')).length = 21 ∧
    executeCommand (mkForbidden defaultForbidden) (str "pause" ++ List.replicate 20 '\n') =
      ExecResult.paused := by
  decide

/-- Claim C2, amended: provided none of the earlier checks handles the
command first (it is not the pause/exit sentinel, not empty after trimming,
not forbidden, contains no unterminated heredoc, and is not taken by the
cat-heredoc fast path), a command with more than the 20-line maximum is
rejected with `COMMAND_TOO_LONG` carrying `lineCount` equal to the observed
number of lines, without spawning a shell; and no command with at most 20
lines is ever rejected by this check. -/
theorem claimC2_theorem :
    (∀ (forbidden : List Str) (command : Str),
      lower (jsTrim command) ≠ str "pause" →
      lower (jsTrim command) ≠ str "exit" →
      jsTrim command ≠ [] →
      isCommandForbidden forbidden (jsTrim command) = false →
      findUnterminatedHeredoc (jsTrim command) = none →
      tryHandleHeredocCommand command = none →
      MAX_COMMAND_LINES < (jsSplit '\n' command).length →
      executeCommand forbidden command = ExecResult.tooLong (jsSplit '\n' command).length)
    ∧ (∀ (forbidden : List Str) (command : Str) (n : Nat),
      (jsSplit '\n' command).length ≤ MAX_COMMAND_LINES →
      executeCommand forbidden command ≠ ExecResult.tooLong n) := by
  constructor
  · intro forbidden command hp he hne hforb hheredoc hfast hlen
    unfold executeCommand
    rw [if_neg (by rintro (hc | hc); exact hp hc; exact he hc)]
    rw [if_neg hne]
    rw [if_neg (by rw [hforb]; simp)]
    rw [hheredoc, hfast]
    rw [if_pos hlen]
  · intro forbidden command n hle
    unfold executeCommand
    split
    · intro h; cases h
    split
    · intro h; cases h
    split
    · intro h; cases h
    split
    · intro h; cases h
    split
    · intro h; cases h
    · intro h; cases h
    split
    · rename_i hgt
      exfalso
      unfold MAX_COMMAND_LINES at hgt hle
      omega
    · intro h; cases h

/-- Witness for claim C2: a plain 21-line command is rejected with
`COMMAND_TOO_LONG` and line count 21. -/
theorem claimC2_witness :
    executeCommand (mkForbidden defaultForbidden)
      (str "a1\na2\na3\na4\na5\na6\na7\na8\na9\na10\na11\na12\na13\na14\na15\na16\na17\na18\na19\na20\na21") =
      ExecResult.tooLong 21 := by
  have h := claimC2_theorem.1 (mkForbidden defaultForbidden)
    (str "a1\na2\na3\na4\na5\na6\na7\na8\na9\na10\na11\na12\na13\na14\na15\na16\na17\na18\na19\na20\na21")
    (by decide) (by decide) (by decide) (by decide) (by decide) (by decide) (by decide)
  exact h.trans (by decide)

/-! ### Claim C3 -/

theorem closingGo_isSome (term : Str) : ∀ (lines : List Str) (k : Nat),
    (∃ j l, lines.get? j = some l ∧ 0 < k + j ∧ stripCr l = term) →
    ∃ ci, closingGo term lines k = some ci := by
  intro lines
  induction lines with
  | nil =>
    rintro k ⟨j, l, hg, _, _⟩
    simp at hg
  | cons hd tl ih =>
    rintro k ⟨j, l, hg, hpos, hstrip⟩
    by_cases hcond : 0 < k ∧ stripCr hd = term
    · refine ⟨k, ?_⟩
      unfold closingGo
      rw [if_pos hcond]
    · cases j with
      | zero =>
        rw [List.get?_cons_zero] at hg
        injection hg with hg
        subst hg
        simp only [Nat.add_zero] at hpos
        exact absurd ⟨hpos, hstrip⟩ hcond
      | succ j2 =>
        rw [List.get?_cons_succ] at hg
        obtain ⟨ci, hci⟩ := ih (k + 1) ⟨j2, l, hg, by omega, hstrip⟩
        refine ⟨ci, ?_⟩
        unfold closingGo
        rw [if_neg hcond]
        exact hci

/-- Claim C3, counterexample: the claim asserts that every command whose
first line is a `cat > file << MARKER` opener with a later `MARKER` line is
written to the filesystem without spawning.  But `findUnterminatedHeredoc`
runs first and scans the whole command: when the body contains another
opener (`x << ZZZ`) with no closing line, the command is rejected as an
unterminated heredoc and nothing is written, even though the first line and
its closing `EOF` line satisfy the claim's hypothesis. -/
theorem claimC3_counterexample :
    executeCommand (mkForbidden defaultForbidden) (str "cat > f << EOF\nx << ZZZ\nEOF") =
      ExecResult.unterminatedHeredoc [str "ZZZ"] ∧
    (executeCommand (mkForbidden defaultForbidden)
      (str "cat > f << EOF\nx << ZZZ\nEOF")).successFlag = some false ∧
    matchCatHeredoc (jsTrim (str "cat > f << EOF")) = some (false, str "f", str "EOF") := by
  decide

/-- Claim C3, amended: provided the command passes the earlier checks (not
the pause/exit sentinel, non-empty, not forbidden, and
`findUnterminatedHeredoc` finds no unmatched opener anywhere in it), a
command whose first line matches the `cat >/>> path << MARKER` pattern and
which has a later line equal to MARKER is handled without spawning a shell:
the heredoc body is written to the target file (`isAppend` records `>>`
versus `>`), the result is a success, and — because this path runs before
the line-count budget — the command is never rejected as too long, whatever
its line count. -/
theorem claimC3_theorem :
    ∀ (forbidden : List Str) (command : Str) (isAppend : Bool) (rawPath term l0 : Str),
      lower (jsTrim command) ≠ str "pause" →
      lower (jsTrim command) ≠ str "exit" →
      jsTrim command ≠ [] →
      isCommandForbidden forbidden (jsTrim command) = false →
      findUnterminatedHeredoc (jsTrim command) = none →
      (jsSplit '\n' command).head? = some l0 →
      matchCatHeredoc (jsTrim l0) = some (isAppend, rawPath, term) →
      (∃ j l, (jsSplit '\n' command).get? j = some l ∧ 0 < j ∧ stripCr l = term) →
      (∃ ci, findClosingIdx (jsSplit '\n' command) term = some ci)
      ∧ (∀ ci, findClosingIdx (jsSplit '\n' command) term = some ci →
          executeCommand forbidden command =
            ExecResult.heredocWrite isAppend (stripQuotes (jsTrim rawPath))
              (heredocContent (((jsSplit '\n' command).take ci).drop 1))
              (((jsSplit '\n' command).take ci).drop 1).length)
      ∧ (executeCommand forbidden command).successFlag = some true
      ∧ ∀ n, executeCommand forbidden command ≠ ExecResult.tooLong n := by
  intro forbidden command isAppend rawPath term l0 hp he hne hforb hheredoc hhead hmatch hclose
  obtain ⟨j, l, hg, hj, hstrip⟩ := hclose
  have hci : ∃ ci, findClosingIdx (jsSplit '\n' command) term = some ci := by
    unfold findClosingIdx
    exact closingGo_isSome term (jsSplit '\n' command) 0 ⟨j, l, hg, by omega, hstrip⟩
  obtain ⟨ci, hcieq⟩ := hci
  have hfast : ∀ ci', findClosingIdx (jsSplit '\n' command) term = some ci' →
      tryHandleHeredocCommand command =
        some (HeredocOutcome.written isAppend (stripQuotes (jsTrim rawPath))
          (heredocContent (((jsSplit '\n' command).take ci').drop 1))
          (((jsSplit '\n' command).take ci').drop 1).length) := by
    intro ci' hci'
    unfold tryHandleHeredocCommand
    rw [hhead]
    dsimp only
    rw [hmatch]
    dsimp only
    rw [hci']
  have hexec : ∀ ci', findClosingIdx (jsSplit '\n' command) term = some ci' →
      executeCommand forbidden command =
        ExecResult.heredocWrite isAppend (stripQuotes (jsTrim rawPath))
          (heredocContent (((jsSplit '\n' command).take ci').drop 1))
          (((jsSplit '\n' command).take ci').drop 1).length := by
    intro ci' hci'
    unfold executeCommand
    rw [if_neg (by rintro (hc | hc); exact hp hc; exact he hc)]
    rw [if_neg hne]
    rw [if_neg (by rw [hforb]; simp)]
    rw [hheredoc]
    rw [hfast ci' hci']
  refine ⟨⟨ci, hcieq⟩, hexec, ?_, ?_⟩
  · rw [hexec ci hcieq]; rfl
  · intro n h
    rw [hexec ci hcieq] at h
    cases h
/-- The 22-line heredoc command used by the claim C3 witness. -/
def catWitnessCmd : Str :=
  str "cat > out.txt << EOF\nb01\nb02\nb03\nb04\nb05\nb06\nb07\nb08\nb09\nb10\nb11\nb12\nb13\nb14\nb15\nb16\nb17\nb18\nb19\nb20\nEOF"

/-- Witness for claim C3: a 22-line `cat > out.txt << EOF` command is
written to the file (20 body lines, trailing newline appended), is a
success, and is never rejected as too long despite exceeding the 20-line
budget. -/
theorem claimC3_witness :
    executeCommand (mkForbidden defaultForbidden) catWitnessCmd =
      ExecResult.heredocWrite false (str "out.txt")
        (str "b01\nb02\nb03\nb04\nb05\nb06\nb07\nb08\nb09\nb10\nb11\nb12\nb13\nb14\nb15\nb16\nb17\nb18\nb19\nb20\n") 20
    ∧ (jsSplit '\n' catWitnessCmd).length = 22
    ∧ ∀ n, executeCommand (mkForbidden defaultForbidden) catWitnessCmd ≠
        ExecResult.tooLong n := by
  have h := claimC3_theorem (mkForbidden defaultForbidden) catWitnessCmd false
    (str "out.txt") (str "EOF") (str "cat > out.txt << EOF")
    (by decide) (by decide) (by decide) (by decide) (by decide) (by decide) (by decide)
    ⟨21, str "EOF", by decide, by decide, by decide⟩
  exact ⟨(h.2.1 21 (by decide)).trans (by decide), by decide, h.2.2.2⟩

/-! ### Claim C8 -/

/-- Claim C8 (confirmed): a reply containing no command markers and no
agent-delegation line parses to `type = 'comment'` (the spec's `Chat`
primary type), with an empty `commands` list and no `command`, so the
execution loop has nothing to run for it. -/
theorem claimC8_theorem :
    ∀ response : Str,
      hasSub mOpen response = false →
      (∀ l ∈ jsSplit '\n' response, agentMatch (jsTrim l) = none) →
      (parseAIResponse response).rtype = str "comment"
      ∧ (parseAIResponse response).commands = []
      ∧ (parseAIResponse response).command = none := by
  intro r h1 h2
  have hfs : findSub mOpen r = none := hasSub_findSub_none (by decide) h1
  have hsc : parseScan r 0 = (appendChat r, []) := by rw [parseScan_eq, hfs]
  have hnos : (appendChat r).filterMap shellContent = [] := appendChat_no_shell r
  have hcomm := appendChat_comments r h2
  have hagent : (appendChat r).any isAgentAction = false := by
    cases hx : (appendChat r).any isAgentAction with
    | false => rfl
    | true =>
      exfalso
      rw [List.any_eq_true] at hx
      obtain ⟨a, ha, hpa⟩ := hx
      obtain ⟨cnt, hcnt⟩ := hcomm a ha
      rw [hcnt] at hpa
      exact absurd hpa (by simp [isAgentAction])
  unfold parseAIResponse
  rw [hsc]
  dsimp only
  rw [hnos, hagent]
  refine ⟨?_, rfl, rfl⟩
  rw [if_neg (by simp)]
  rw [if_neg (by simp)]

/-- Witness for claim C8: a two-line chat-only reply parses to a comment
with no commands. -/
theorem claimC8_witness :
    (parseAIResponse (str "Just chatting here.\nNothing to execute.")).rtype = str "comment"
    ∧ (parseAIResponse (str "Just chatting here.\nNothing to execute.")).commands = []
    ∧ (parseAIResponse (str "Just chatting here.\nNothing to execute.")).command = none := by
  have h := claimC8_theorem (str "Just chatting here.\nNothing to execute.")
    (by decide) (by decide)
  exact h

/-! ### Claim C6 -/

/-- Claim C6 (confirmed): a reply with exactly one opening marker and no
closing marker after it parses with exactly one unclosed-block diagnostic
(recording the marker's start offset and a preview capped at 200
characters), an empty `commands` list, and the dangling marker together
with everything after it reprocessed as a chat segment (the action list is
the chat parse of the text before the marker followed by the chat parse of
the text from the marker on). -/
theorem claimC6_theorem :
    ∀ (r : Str) (p : Nat),
      (List.range (r.length + 1)).filter (fun i => startsList mOpen (r.drop i)) = [p] →
      ((List.range (r.length + 1)).filter
        (fun q => startsList mClose (r.drop q))).all (fun q => decide (q < p + 3)) = true →
      (parseAIResponse r).unclosedBlocks = [⟨p, (r.drop p).take 200⟩]
      ∧ (parseAIResponse r).commands = []
      ∧ (parseAIResponse r).actions = appendChat (r.take p) ++ appendChat (r.drop p) := by
  intro r p hone hclose
  have hpmem : p ∈ (List.range (r.length + 1)).filter
      (fun i => startsList mOpen (r.drop i)) := by rw [hone]; simp
  rw [List.mem_filter, List.mem_range] at hpmem
  obtain ⟨hprange, hpocc⟩ := hpmem
  have hmin : ∀ i, i < p → startsList mOpen (r.drop i) = false := by
    intro i hip
    cases hx : startsList mOpen (r.drop i) with
    | false => rfl
    | true =>
      exfalso
      have himem : i ∈ (List.range (r.length + 1)).filter
          (fun i => startsList mOpen (r.drop i)) := by
        rw [List.mem_filter, List.mem_range]
        exact ⟨by omega, hx⟩
      rw [hone] at himem
      simp at himem
      omega
  have hfs : findSub mOpen r = some p := findSub_of (by decide) hpocc hmin
  have hcl : findSub mClose (r.drop (p + 3)) = none := by
    apply findSub_none_of
    intro j
    cases hx : startsList mClose ((r.drop (p + 3)).drop j) with
    | false => rfl
    | true =>
      exfalso
      rw [List.drop_drop] at hx
      have hlen := startsList_length hx
      rw [List.length_drop] at hlen
      have hmem : (p + 3 + j) ∈ (List.range (r.length + 1)).filter
          (fun q => startsList mClose (r.drop q)) := by
        rw [List.mem_filter, List.mem_range]
        have h3 : mClose.length = 3 := by decide
        rw [h3] at hlen
        exact ⟨by omega, hx⟩
      have := List.all_eq_true.mp hclose _ hmem
      simp at this
  have hsc : parseScan r 0 =
      (appendChat (r.take p) ++ appendChat (r.drop p), [⟨0 + p, (r.drop p).take 200⟩]) := by
    rw [parseScan_eq, hfs]
    dsimp only
    rw [hcl]
  unfold parseAIResponse
  rw [hsc]
  dsimp only
  refine ⟨by rw [Nat.zero_add], ?_, rfl⟩
  rw [List.filterMap_append, appendChat_no_shell, appendChat_no_shell]
  rfl

/-- Witness for claim C6: `text >>> echo hi` has its single opening marker
at offset 5 and no closing marker; the parse records one unclosed block and
no commands, and reprocesses the dangling text as chat. -/
theorem claimC6_witness :
    (parseAIResponse (str "text >>> echo hi")).unclosedBlocks =
      [⟨5, ((str "text >>> echo hi").drop 5).take 200⟩]
    ∧ (parseAIResponse (str "text >>> echo hi")).commands = []
    ∧ (parseAIResponse (str "text >>> echo hi")).actions =
        appendChat ((str "text >>> echo hi").take 5) ++
        appendChat ((str "text >>> echo hi").drop 5) := by
  have h := claimC6_theorem (str "text >>> echo hi") 5 (by decide) (by decide)
  exact h

/-! ### Claim C5 -/

/-- Builds a reply out of `N` marker pairs: chat segments interleaved with
marker-wrapped command bodies, ending in a final chat segment. -/
def assemble : List (Str × Str) → Str → Str
  | [], tail => tail
  | (chat, body) :: ps, tail => chat ++ (mOpen ++ (body ++ (mClose ++ assemble ps tail)))

theorem parseScan_assemble :
    ∀ (ps : List (Str × Str)) (tail : Str) (base : Nat),
      (∀ pb ∈ ps, hasSub mOpen (pb.1 ++ mOpen.take (mOpen.length - 1)) = false) →
      (∀ pb ∈ ps, hasSub mClose (pb.2 ++ mClose.take (mClose.length - 1)) = false) →
      (∀ pb ∈ ps, jsTrim pb.2 ≠ []) →
      hasSub mOpen tail = false →
      (parseScan (assemble ps tail) base).1.filterMap shellContent =
        ps.map (fun pb => jsTrim pb.2) := by
  intro ps
  induction ps with
  | nil =>
    intro tail base _ _ _ ht
    have hfs : findSub mOpen tail = none := hasSub_findSub_none (by decide) ht
    unfold assemble
    rw [parseScan_eq, hfs]
    dsimp only
    rw [appendChat_no_shell]
    rfl
  | cons pb ps ih =>
    obtain ⟨chat, body⟩ := pb
    intro tail base hc hb hn ht
    have hc0 : hasSub mOpen (chat ++ mOpen.take (mOpen.length - 1)) = false :=
      hc (chat, body) (by simp)
    have hb0 : hasSub mClose (body ++ mClose.take (mClose.length - 1)) = false :=
      hb (chat, body) (by simp)
    have hn0 : jsTrim body ≠ [] := hn (chat, body) (by simp)
    have hop : findSub mOpen (chat ++ (mOpen ++ (body ++ (mClose ++ assemble ps tail)))) =
        some chat.length :=
      findSub_append_marker mOpen chat _ (by decide) hc0
    unfold assemble
    rw [parseScan_eq, hop]
    dsimp only
    have hdrop1 : (chat ++ (mOpen ++ (body ++ (mClose ++ assemble ps tail)))).drop
        (chat.length + 3) = body ++ (mClose ++ assemble ps tail) := by
      rw [← List.append_assoc]
      have hlen : chat.length + 3 = (chat ++ mOpen).length := by
        simp [mOpen, str]
      rw [hlen, List.drop_left]
    rw [hdrop1]
    have hcl : findSub mClose (body ++ (mClose ++ assemble ps tail)) = some body.length :=
      findSub_append_marker mClose body _ (by decide) hb0
    rw [hcl]
    dsimp only
    rw [List.take_left, List.take_left]
    rw [if_neg hn0]
    have hdrop2 : (body ++ (mClose ++ assemble ps tail)).drop (body.length + 3) =
        assemble ps tail := by
      rw [← List.append_assoc]
      have hlen : body.length + 3 = (body ++ mClose).length := by
        simp [mClose, str]
      rw [hlen, List.drop_left]
    rw [hdrop2]
    rw [List.filterMap_append, List.filterMap_append]
    rw [appendChat_no_shell]
    rw [ih tail (base + chat.length + 3 + body.length + 3)
      (fun x hx => hc x (by simp [hx])) (fun x hx => hb x (by simp [hx]))
      (fun x hx => hn x (by simp [hx])) ht]
    simp [shellContent]

/-- Claim C5, counterexample: the claim asserts `commands.length = N` for a
reply with `N` well-formed marker pairs.  The reply `>>> <<<` contains one
well-formed pair whose interior is whitespace; the parser drops the
empty-after-trimming command, producing zero commands instead of one. -/
theorem claimC5_counterexample :
    (parseAIResponse (str ">>> <<<")).commands = [] ∧
    (parseAIResponse (str ">>> <<<")).commands.length ≠ 1 := by
  decide

/-- Claim C5, amended: for every reply made of `N` well-formed marker pairs
(chat segments free of stray `>>>` occurrences around the opening markers,
bodies free of stray `<<<` occurrences, in the sense of the separation
hypotheses below) whose interior text is non-empty after trimming,
`commands` has exactly `N` elements, the i-th being the trimmed interior of
the i-th pair in document order; pairs whose interior trims to empty are
dropped (see the counterexample). -/
theorem claimC5_theorem :
    ∀ (ps : List (Str × Str)) (tail : Str),
      (∀ pb ∈ ps, hasSub mOpen (pb.1 ++ mOpen.take (mOpen.length - 1)) = false) →
      (∀ pb ∈ ps, hasSub mClose (pb.2 ++ mClose.take (mClose.length - 1)) = false) →
      (∀ pb ∈ ps, jsTrim pb.2 ≠ []) →
      hasSub mOpen tail = false →
      (parseAIResponse (assemble ps tail)).commands = ps.map (fun pb => jsTrim pb.2)
      ∧ (parseAIResponse (assemble ps tail)).commands.length = ps.length := by
  intro ps tail hc hb hn ht
  have h := parseScan_assemble ps tail 0 hc hb hn ht
  constructor
  · exact h
  · show ((parseScan (assemble ps tail) 0).1.filterMap shellContent).length = ps.length
    rw [h, List.length_map]

/-- The two marker pairs used by the claim C5 witness. -/
def c5pairs : List (Str × Str) :=
  [(str "Intro: ", str "\nls -la\n"), (str "\nthen: ", str "pwd")]

/-- Witness for claim C5: a reply with two marker pairs (one body spanning
multiple lines) parses to exactly those two trimmed commands in document
order. -/
theorem claimC5_witness :
    (parseAIResponse (assemble c5pairs (str " all done"))).commands =
      [str "ls -la", str "pwd"]
    ∧ (parseAIResponse (assemble c5pairs (str " all done"))).commands.length = 2 := by
  have h := claimC5_theorem c5pairs (str " all done")
    (by decide) (by decide) (by decide) (by decide)
  exact ⟨h.1.trans (by decide), h.2.trans (by decide)⟩

end DS
